import Mathlib

/-
Verification development for the opsy agent-orchestration core.

The Go source is shallowly embedded: strings are lists of characters,
`os`/process effects are oracle parameters, and the Anthropic API is a
script of per-turn results consumed by the orchestration loop.
-/

set_option maxHeartbeats 1000000

namespace Opsy

/-- Strings are modelled as lists of characters. -/
abbrev Str := List Char

/-- The OS path separator on Linux (`os.PathSeparator`). -/
def sep : Char := '/'

/-- `strings.TrimRight(s, "/")`: removes every trailing separator. -/
def trimRightSep (s : Str) : Str :=
  (s.reverse.dropWhile (fun c => c == sep)).reverse

/-- `strings.TrimPrefix(s, p)`: drops `p` from the front of `s` when it is there. -/
def trimPre (s p : Str) : Str :=
  if p.isPrefixOf s then s.drop p.length else s

/-- `strings.TrimSpace`: strips whitespace from both ends. -/
def trimSpace (s : Str) : Str :=
  ((s.dropWhile Char.isWhitespace).reverse.dropWhile Char.isWhitespace).reverse

/-- The literal `"./"` used by `getWorkingDirectory`. -/
def dotSlash : Str := ['.', '/']

/-- Prepend a character to the first component of a split. -/
def consHead (c : Char) : List Str → List Str
  | [] => [[c]]
  | h :: t => (c :: h) :: t

/-- Split a path at every separator; empty components are kept,
mirroring how `filepath.Clean` scans the path. -/
def splitSep : Str → List Str
  | [] => [[]]
  | c :: rest =>
    if c = sep then [] :: splitSep rest
    else consHead c (splitSep rest)

/-- Components that `filepath.Clean` simply discards: empty ones and `"."`. -/
def filterComps (s : Str) : List Str :=
  (splitSep s).filter (fun c => decide (c ≠ [] ∧ c ≠ ['.']))

/-- One step of `filepath.Clean`'s `..` resolution; the stack top is at the head. -/
def resolveStep (abs : Bool) (stack : List Str) (comp : Str) : List Str :=
  if comp = ['.', '.'] then
    match stack with
    | [] => if abs then [] else [comp]
    | top :: rest => if top = ['.', '.'] then comp :: top :: rest else rest
  else comp :: stack

/-- Resolve `..` components the way `filepath.Clean` does. -/
def resolveComps (abs : Bool) (comps : List Str) : List Str :=
  (comps.foldl (resolveStep abs) []).reverse

/-- Join components with single separators. -/
def joinComps : List Str → Str
  | [] => []
  | [c] => c
  | c :: c2 :: rest => c ++ sep :: joinComps (c2 :: rest)

/-- `filepath.Clean` on Unix: lexical cleaning of a path. -/
def clean (s : Str) : Str :=
  if s = [] then ['.']
  else
    if s.head? = some sep then
      (if resolveComps true (filterComps s) = [] then [sep]
       else sep :: joinComps (resolveComps true (filterComps s)))
    else
      (if resolveComps false (filterComps s) = [] then ['.']
       else joinComps (resolveComps false (filterComps s)))

/-- `filepath.Join(a, b)`: empty elements are skipped and the result is cleaned;
if everything is empty the result is the empty string. -/
def joinPath (a b : Str) : Str :=
  if a = [] then (if b = [] then [] else clean b)
  else if b = [] then clean a
  else clean (a ++ sep :: b)

/-- A JSON-ish value appearing in a tool's `map[string]any` input map. -/
inductive Value where
  | str (s : Str)
  | num (n : Int)
  | boolean (b : Bool)
  | null
deriving DecidableEq, Repr

/-- A tool input map (`map[string]any` after `json.Unmarshal`). -/
abbrev Inputs := List (Str × Value)

/-- Map lookup on an input map. -/
def lookupInput (inputs : Inputs) (k : Str) : Option Value :=
  (inputs.find? (fun p => p.1 = k)).map (fun p => p.2)

/-- The Go type assertion `inputs[k].(string)`: `none` when the key is absent
or the value is not a string (`ok == false`). -/
def lookupStr (inputs : Inputs) (k : Str) : Option Str :=
  match lookupInput inputs k with
  | some (Value.str s) => some s
  | _ => none

/-- The `"command"` input parameter of the exec tool. -/
def inputCommand : Str := ['c', 'o', 'm', 'm', 'a', 'n', 'd']

/-- The `"task"` common input parameter. -/
def inputTask : Str := ['t', 'a', 's', 'k']

/-- The `"working_directory"` common input parameter. -/
def inputWorkingDirectory : Str :=
  ['w', 'o', 'r', 'k', 'i', 'n', 'g', '_', 'd', 'i', 'r', 'e', 'c', 't', 'o', 'r', 'y']

/-- The reserved name of the exec tool (`tool.ExecToolName`). -/
def execToolName : Str := ['e', 'x', 'e', 'c']

/-- `getWorkingDirectory` from `internal/tool/exec.go`, with the result of
`os.Getwd()` passed in as `cwd`. -/
def getWorkingDirectory (cwd : Str) (inputs : Inputs) : Str :=
  let currentDir := trimRightSep cwd
  match lookupStr inputs inputWorkingDirectory with
  | none => currentDir
  | some workingDir =>
    if workingDir = ['.'] then currentDir
    else if dotSlash.isPrefixOf workingDir || !(workingDir.contains sep) then
      joinPath currentDir (trimPre workingDir dotSlash)
    else
      let currentDir2 := currentDir ++ [sep]
      let workingDir2 :=
        if currentDir2.isPrefixOf workingDir then
          joinPath currentDir2 (trimPre workingDir currentDir2)
        else workingDir
      trimRightSep workingDir2

/-- An executed-command record (`tool.Command`), minus wall-clock timestamps,
which are ambient effects no claim mentions. -/
structure Command where
  command : Str
  workingDirectory : Str
  exitCode : Int
  output : Str
deriving DecidableEq, Repr

/-- A tool's output (`tool.Output`). -/
structure Output where
  tool : Str
  result : Str
  isError : Bool
  executedCommand : Option Command
deriving DecidableEq, Repr

/-- The error values surfaced by the embedded code paths. -/
inductive Err where
  | noRunOptions
  | noTaskProvided
  | invalidInputType (param : Str)
  | exitStatus (code : Nat)
  | signalKilled
  | startFailure
  | api (e : Nat)
  | toolFailure (e : Nat)
deriving DecidableEq, Repr

/-- Outcome of `cmd.CombinedOutput()` for one spawned process: it exited with
a code, was killed (timeout/cancellation), or never started. -/
inductive ProcOutcome where
  | exited (code : Nat) (out : Str)
  | killed (out : Str)
  | startFailed
deriving DecidableEq, Repr

/-- The error value `cmd.CombinedOutput()` returns for an outcome:
`nil` exactly when the process exited with code 0. -/
def procErr : ProcOutcome → Option Err
  | ProcOutcome.exited 0 _ => none
  | ProcOutcome.exited (n + 1) _ => some (Err.exitStatus (n + 1))
  | ProcOutcome.killed _ => some Err.signalKilled
  | ProcOutcome.startFailed => some Err.startFailure

/-- `cmd.ProcessState.ExitCode()`: the exit code, or `-1` for a process that
was killed by a signal or never started. -/
def procExitCode : ProcOutcome → Int
  | ProcOutcome.exited n _ => (n : Int)
  | ProcOutcome.killed _ => -1
  | ProcOutcome.startFailed => -1

/-- Combined stdout+stderr captured for an outcome. -/
def procOut : ProcOutcome → Str
  | ProcOutcome.exited _ out => out
  | ProcOutcome.killed out => out
  | ProcOutcome.startFailed => []

/-- Whether an exec invocation went wrong in the sense of the spec's P6:
non-zero exit, killed by timeout, or failed to spawn. -/
def procBad : ProcOutcome → Bool
  | ProcOutcome.exited code _ => decide (code ≠ 0)
  | ProcOutcome.killed _ => true
  | ProcOutcome.startFailed => true

/-- The ambient operating system as the exec tool sees it: the working
directory reported by `os.Getwd()` and the process spawner (shell, timeout
and process-group management live behind `spawn`). -/
structure OsEnv where
  cwd : Str
  spawn : Str → Str → ProcOutcome

/-- `execTool.Execute` from `internal/tool/exec.go`: type-checks the
`command` input, resolves the working directory, spawns the command and
builds the `tool.Output`, returning it together with the execution error. -/
def execExecute (env : OsEnv) (inputs : Inputs) : Option Output × Option Err :=
  match lookupStr inputs inputCommand with
  | none => (none, some (Err.invalidInputType inputCommand))
  | some command =>
    let workingDirectory := getWorkingDirectory env.cwd inputs
    let res := env.spawn command workingDirectory
    let err := procErr res
    let result := trimSpace (procOut res)
    let output : Output :=
      { tool := execToolName
        result := result
        isError := err.isSome
        executedCommand := some
          { command := command
            workingDirectory := workingDirectory
            exitCode := procExitCode res
            output := result } }
    (some output, err)

/-- A tool-result content block (`anthropic.NewToolResultBlock`). -/
structure ResultBlock where
  id : Str
  content : Str
  isError : Bool
deriving DecidableEq, Repr

/-- A content block of a model response: text, or a tool-use request whose
input payload is `none` when `json.Unmarshal` fails on it. -/
inductive ContentBlock where
  | text (s : Str)
  | toolUse (id name : Str) (input : Option Inputs)
deriving DecidableEq, Repr

/-- One model response (`anthropic.Message`): its ordered content blocks. -/
structure ModelResponse where
  content : List ContentBlock
deriving DecidableEq, Repr

/-- The content of a user-role conversation turn: the initial task text, or
the tool results fed back after a turn. -/
inductive UserContent where
  | text (s : Str)
  | toolResults (rs : List ResultBlock)
deriving DecidableEq, Repr

/-- One conversation turn (`anthropic.MessageParam`). -/
inductive Turn where
  | user (c : UserContent)
  | model (r : ModelResponse)
deriving DecidableEq, Repr

/-- Result of one `a.client.Messages.New` call: a response or a transport
error. -/
inductive ApiResult where
  | ok (r : ModelResponse)
  | fail (e : Nat)
deriving DecidableEq, Repr

/-- Agent status values. -/
inductive StatusV where
  | ready
  | running
  | finished
  | error
deriving DecidableEq, Repr

/-- A tool as the orchestration loop sees it (`tool.Tool`): its `Execute`
behaviour. -/
structure ATool where
  execute : Inputs → Option Output × Option Err

/-- `tool.RunOptions`. -/
structure RunOptions where
  task : Str
  prompt : Str
  caller : Str
  tools : List (Str × ATool)

/-- Lookup in the run's tool map (`opts.Tools[block.Name]`). -/
def lookupTool (tools : List (Str × ATool)) (name : Str) : Option ATool :=
  (tools.find? (fun p => p.1 = name)).map (fun p => p.2)

/-- Servicing of one content block inside the turn loop of `Agent.Run`:
`none` when the block is text, its input payload fails to unmarshal, the
named tool is missing, or the tool returns a nil output — all of which
`continue` without building a tool result; otherwise the tool-result block
and the output appended for it. -/
def serviceBlock (tools : List (Str × ATool)) : ContentBlock → Option (ResultBlock × Output)
  | ContentBlock.text _ => none
  | ContentBlock.toolUse id name input? =>
    match input? with
    | none => none
    | some inputs =>
      match lookupTool tools name with
      | none => none
      | some t =>
        match t.execute inputs with
        | (none, _) => none
        | (some out, err) =>
          match out.executedCommand with
          | some c =>
            some ({ id := id, content := c.output, isError := decide (c.exitCode ≠ 0) }, out)
          | none =>
            some ({ id := id, content := out.result, isError := err.isSome }, out)

/-- What one `Agent.Run` call produced: the returned output list (`none`
when an error was returned), the returned error, the final conversation
history, how many model API calls were made, and whether the supplied
script of model results was exhausted before the loop decided anything. -/
structure RunResult where
  result : Option (List Output)
  error : Option Err
  conversation : List Turn
  apiCalls : Nat
  ranOut : Bool
deriving Repr

/-- The turn loop of `Agent.Run` (part of `internal/agent/agent.go`): each
iteration sends the conversation to the model (consuming one scripted
`ApiResult`), propagates a transport error immediately, services the
response's blocks in order, appends the model turn, and either terminates
when no tool result was built or feeds the tool results back as a user
turn. -/
def runLoop (tools : List (Str × ATool)) (script : List ApiResult)
    (conv : List Turn) (outputs : List Output) : RunResult :=
  match script with
  | [] =>
    { result := none, error := none, conversation := conv, apiCalls := 0, ranOut := true }
  | ApiResult.fail e :: _ =>
    { result := none, error := some (Err.api e), conversation := conv, apiCalls := 1,
      ranOut := false }
  | ApiResult.ok r :: rest =>
    let serviced := r.content.filterMap (serviceBlock tools)
    let toolResults := serviced.map (fun p => p.1)
    let outs := serviced.map (fun p => p.2)
    let conv1 := conv ++ [Turn.model r]
    if toolResults = [] then
      { result := some (outputs ++ outs), error := none, conversation := conv1,
        apiCalls := 1, ranOut := false }
    else
      let r2 := runLoop tools rest (conv1 ++ [Turn.user (UserContent.toolResults toolResults)])
        (outputs ++ outs)
      { r2 with apiCalls := r2.apiCalls + 1 }

/-- `Agent.Run` including the emitted statuses: the precondition checks come
before any status emission or API call; then the conversation is seeded
with the task as the single user turn and the turn loop runs. -/
def agentRun (opts : Option RunOptions) (script : List ApiResult) :
    RunResult × List StatusV :=
  match opts with
  | none =>
    ({ result := none, error := some Err.noRunOptions, conversation := [], apiCalls := 0,
       ranOut := false }, [])
  | some o =>
    if o.task = [] then
      ({ result := none, error := some Err.noTaskProvided, conversation := [], apiCalls := 0,
         ranOut := false }, [])
    else
      (runLoop o.tools script [Turn.user (UserContent.text o.task)] [], [StatusV.running])

/-- `tool.Input`: the declared shape of one input of a declarative tool. -/
structure InputDef where
  type : Str
  description : Str
  dfault : Str
  optional : Bool
deriving DecidableEq, Repr

/-- `tool.Definition`: a declarative tool definition (after `tool.New` has
composed the system prompt). -/
structure Definition where
  displayName : Str
  description : Str
  systemPrompt : Str
  inputs : List (Str × InputDef)
  executable : Str
deriving DecidableEq, Repr

/-- JSON rendering of one input value (`json.MarshalIndent`); the exact
formatting is irrelevant to every claim. -/
def marshalValue : Value → Str
  | Value.str s => '"' :: s ++ ['"']
  | Value.num n => (toString n).data
  | Value.boolean b => (toString b).data
  | Value.null => ['n', 'u', 'l', 'l']

/-- JSON rendering of the whole input map. -/
def marshalInputs : Inputs → Str
  | [] => []
  | (k, v) :: rest =>
    '"' :: k ++ '"' :: ':' :: ' ' :: marshalValue v ++
      (if rest = [] then [] else [',', '\n']) ++ marshalInputs rest

/-- The rendered nested task (`assets.ToolUserPrompt` applied to the bound
executable, the original task text and the serialized inputs); the template
text itself is an embedded asset outside the core, so it is modelled as a
plain combination of its three parameters. -/
def renderToolUserPrompt (executable task inputsJson : Str) : Str :=
  executable ++ '\n' :: task ++ '\n' :: inputsJson

/-- A declarative tool as constructed by `tool.New`. -/
structure DeclTool where
  name : Str
  definition : Definition

/-- The exec tool packaged behind the `tool.Tool` interface
(`tool.NewExecTool`). -/
def execATool (env : OsEnv) : ATool :=
  { execute := execExecute env }

/-- `Agent.Run` behind the `tool.Runner` interface, as a declarative tool
holds it: options in, output list (nil on failure) and error out. -/
abbrev Runner := RunOptions → List Output × Option Err

/-- The nested `tool.RunOptions` a declarative tool's `Execute` builds for
its recursive agent run: rendered task, its own system prompt, its display
name as caller, and a tool map holding only the exec tool. -/
def nestedRunOptions (env : OsEnv) (t : DeclTool) (task : Str) (inputs : Inputs) : RunOptions :=
  { task := renderToolUserPrompt t.definition.executable task (marshalInputs inputs)
    prompt := t.definition.systemPrompt
    caller := t.definition.displayName
    tools := [(execToolName, execATool env)] }

/-- `tool.Execute` for a declarative tool (`internal/tool/tool.go`):
type-checks the `task` input, delegates to the nested agent run, and wraps
the nested run's last output into this tool's output. -/
def declExecute (runner : Runner) (env : OsEnv) (t : DeclTool) (inputs : Inputs) :
    Option Output × Option Err :=
  match lookupStr inputs inputTask with
  | none => (none, some (Err.invalidInputType inputTask))
  | some task =>
    let pr := runner (nestedRunOptions env t task inputs)
    let result :=
      match pr.1.getLast? with
      | some o => o.result
      | none => []
    (some { tool := t.definition.displayName, result := result, isError := pr.2.isSome,
            executedCommand := none }, pr.2)

/-- Validation errors for a declarative definition. -/
inductive DefErr where
  | missingDisplayName
  | missingDescription
  | inputMissingType (name : Str)
  | inputMissingDescription (name : Str)
  | executableNotFound (exe : Str)
deriving DecidableEq, Repr

/-- `tool.ValidateDefinition`, with `exec.LookPath` modelled by the list
`path` of executables resolvable on the current PATH. -/
def validateDefinition (path : List Str) (d : Definition) : Option DefErr :=
  if d.displayName = [] then some DefErr.missingDisplayName
  else if d.description = [] then some DefErr.missingDescription
  else
    match d.inputs.find? (fun p => p.2.type = [] || p.2.description = []) with
    | some p =>
      if p.2.type = [] then some (DefErr.inputMissingType p.1)
      else some (DefErr.inputMissingDescription p.1)
    | none =>
      if d.executable ≠ [] ∧ d.executable ∉ path then
        some (DefErr.executableNotFound d.executable)
      else none

/-- A tool instance held by the registry: the statically constructed exec
tool, or a declarative tool built from a validated definition. -/
inductive RegTool where
  | exec
  | decl (name : Str) (d : Definition)
deriving DecidableEq, Repr

/-- The parse result of one file in the tools directory. -/
inductive FileContents where
  | badYaml
  | yamlDef (d : Definition)
deriving DecidableEq, Repr

/-- One `fs.DirEntry` of the tools directory together with what reading and
parsing it yields. -/
structure DirEntry where
  name : Str
  isDir : Bool
  contents : FileContents
deriving DecidableEq, Repr

/-- Go map insertion: overwrite the binding if the key exists, append it
otherwise (keys stay unique). -/
def mapInsert {α : Type} : List (Str × α) → Str → α → List (Str × α)
  | [], k, v => [(k, v)]
  | p :: rest, k, v => if p.1 = k then (k, v) :: rest else p :: mapInsert rest k v

/-- Go map lookup. -/
def mapLookup {α : Type} (m : List (Str × α)) (k : Str) : Option α :=
  (m.find? (fun p => p.1 = k)).map (fun p => p.2)

/-- `strings.TrimSuffix(name, filepath.Ext(name))`: the file name with its
extension (everything from the last dot) removed. -/
def trimExt (s : Str) : Str :=
  if s.contains '.' then ((s.reverse.dropWhile (fun c => c != '.')).drop 1).reverse
  else s

/-- `ToolManager.loadTool`: parse and validate one definition file; `none`
models the logged-and-skipped failure cases. -/
def loadTool (path : List Str) (name : Str) (e : DirEntry) : Option RegTool :=
  match e.contents with
  | FileContents.badYaml => none
  | FileContents.yamlDef d =>
    if (validateDefinition path d).isSome then none else some (RegTool.decl name d)

/-- One iteration of `LoadTools`' entry loop: skip directories and failed
loads, insert the loaded tool under the file's base name otherwise. -/
def loadStep (path : List Str) (m : List (Str × RegTool)) (e : DirEntry) :
    List (Str × RegTool) :=
  if e.isDir then m
  else
    match loadTool path (trimExt e.name) e with
    | none => m
    | some t => mapInsert m (trimExt e.name) t

/-- `ToolManager.LoadTools` after a successful `fs.ReadDir`: clear the map,
statically insert the exec tool, then fold over the directory entries,
skipping directories and definitions that fail to load. -/
def loadTools (path : List Str) (entries : List DirEntry) : List (Str × RegTool) :=
  entries.foldl (loadStep path) (mapInsert ([] : List (Str × RegTool)) execToolName RegTool.exec)

/-- `ToolManager.LoadTools` including the only failing path, an
`fs.ReadDir` error (modelled by `readDir = none`). -/
def loadToolsE (path : List Str) (readDir : Option (List DirEntry)) :
    Option (List (Str × RegTool)) :=
  readDir.map (loadTools path)

/-- Zero or more completed loop iterations appended to the conversation:
one model-response turn followed by one tool-results user turn, repeated. -/
inductive PairedTurns : List Turn → Prop where
  | nil : PairedTurns []
  | snoc (t : List Turn) (r : ModelResponse) (rs : List ResultBlock) :
      PairedTurns t →
      PairedTurns (t ++ [Turn.model r, Turn.user (UserContent.toolResults rs)])

/-- The tail of a final conversation: completed iterations, possibly closed
by one further model-response turn (the terminating one). -/
inductive AltTail : List Turn → Prop where
  | paired (t : List Turn) : PairedTurns t → AltTail t
  | modelEnd (t : List Turn) (r : ModelResponse) :
      PairedTurns t → AltTail (t ++ [Turn.model r])

/-- A tool whose `Execute` returns a nil output together with an error, the
way a declarative tool does on a missing `task` input. -/
def nilOutputTool : ATool :=
  { execute := fun _ => (none, some (Err.invalidInputType inputTask)) }

/-- A concrete operating-system environment for witnesses. -/
def idleOsEnv : OsEnv :=
  { cwd := [sep, 'a'], spawn := fun _ _ => ProcOutcome.exited 0 [] }

/-- A concrete declarative tool for witnesses. -/
def gitDecl : DeclTool :=
  { name := ['g', 'i', 't']
    definition :=
      { displayName := ['G', 'i', 't'], description := ['d'], systemPrompt := []
        inputs := [], executable := ['g', 'i', 't'] } }

/-- A well-formed declarative definition whose file could be named after the
exec tool. -/
def shadowDef : Definition :=
  { displayName := ['X'], description := ['d'], systemPrompt := [], inputs := []
    executable := [] }

/-- A definition that fails validation (empty display name). -/
def invalidDef : Definition :=
  { displayName := [], description := [], systemPrompt := [], inputs := []
    executable := [] }

/-- The file name `exec.yaml`. -/
def execYamlName : Str := ['e', 'x', 'e', 'c', '.', 'y', 'a', 'm', 'l']

/-- Splitting a path never yields an empty component list. -/
theorem splitSep_ne_nil (s : Str) : splitSep s ≠ [] := by
  induction s with
  | nil => simp [splitSep]
  | cons c rest ih =>
    by_cases hc : c = sep
    · simp [splitSep, hc]
    · simp only [splitSep, if_neg hc]
      rcases hsp : splitSep rest with _ | ⟨h1, t1⟩
      · simp [consHead]
      · simp [consHead]

/-- Prepending to the first component distributes over appending a nonempty
split. -/
theorem consHead_append (c : Char) (l l2 : List Str) (h : l ≠ []) :
    consHead c (l ++ l2) = consHead c l ++ l2 := by
  rcases l with _ | ⟨h1, t1⟩
  · exact absurd rfl h
  · simp [consHead]

/-- Splitting distributes over a separator in the middle. -/
theorem splitSep_append (a b : Str) : splitSep (a ++ sep :: b) = splitSep a ++ splitSep b := by
  induction a with
  | nil => simp [splitSep]
  | cons c a2 ih =>
    rw [List.cons_append]
    simp only [splitSep]
    rw [ih]
    by_cases hc : c = sep
    · simp [hc]
    · rw [if_neg hc, if_neg hc]
      exact consHead_append c (splitSep a2) (splitSep b) (splitSep_ne_nil a2)

/-- The kept components distribute over a separator in the middle. -/
theorem filterComps_append (a b : Str) :
    filterComps (a ++ sep :: b) = filterComps a ++ filterComps b := by
  simp [filterComps, splitSep_append, List.filter_append]

/-- A leading separator adds no kept component. -/
theorem filterComps_sep_cons (x : Str) : filterComps (sep :: x) = filterComps x := by
  have h : sep :: x = [] ++ sep :: x := rfl
  rw [h, filterComps_append]
  simp [filterComps, splitSep]

/-- A leading `./` adds no kept component. -/
theorem filterComps_dot_sep_cons (x : Str) :
    filterComps ('.' :: sep :: x) = filterComps x := by
  have h : ('.' : Char) :: sep :: x = ['.'] ++ sep :: x := rfl
  rw [h, filterComps_append]
  simp [filterComps, splitSep, sep, consHead]

/-- Path components contain no separator. -/
theorem splitSep_sep_not_mem (s : Str) : ∀ x ∈ splitSep s, sep ∉ x := by
  induction s with
  | nil =>
    intro x hx
    simp [splitSep] at hx
    simp [hx]
  | cons c rest ih =>
    intro x hx
    by_cases hc : c = sep
    · simp only [splitSep, if_pos hc] at hx
      rcases List.mem_cons.mp hx with h | h
      · simp [h]
      · exact ih x h
    · simp only [splitSep, if_neg hc] at hx
      rcases hsp : splitSep rest with _ | ⟨h1, t1⟩
      · exact absurd hsp (splitSep_ne_nil rest)
      · rw [hsp] at hx
        have hmem1 : h1 ∈ splitSep rest := by
          rw [hsp]
          exact List.mem_cons_self h1 t1
        simp only [consHead] at hx
        rcases List.mem_cons.mp hx with h | h
        · subst h
          intro hmem
          rcases List.mem_cons.mp hmem with h2 | h2
          · exact hc h2.symm
          · exact ih h1 hmem1 h2
        · have hx2 : x ∈ splitSep rest := by
            rw [hsp]
            exact List.mem_cons_of_mem h1 h
          exact ih x hx2

/-- The kept components are nonempty and separator-free. -/
theorem filterComps_good (s : Str) : ∀ x ∈ filterComps s, x ≠ [] ∧ sep ∉ x := by
  intro x hx
  have h3 : x ∈ splitSep s := List.mem_of_mem_filter hx
  have h2 := List.of_mem_filter hx
  simp only [decide_eq_true_eq] at h2
  exact ⟨h2.1, splitSep_sep_not_mem s x h3⟩

/-- One `..`-resolution step preserves nonempty separator-free components. -/
theorem resolveStep_good (abs : Bool) (stack : List Str) (comp : Str)
    (hs : ∀ x ∈ stack, x ≠ [] ∧ sep ∉ x) (hc : comp ≠ [] ∧ sep ∉ comp) :
    ∀ x ∈ resolveStep abs stack comp, x ≠ [] ∧ sep ∉ x := by
  intro x hx
  rcases stack with _ | ⟨top, rest⟩ <;> unfold resolveStep at hx
  · by_cases hdd : comp = ['.', '.']
    · rw [if_pos hdd] at hx
      cases abs with
      | false =>
        simp at hx
        subst hx
        exact hc
      | true => simp at hx
    · rw [if_neg hdd] at hx
      rcases List.mem_cons.mp hx with h | h
      · exact h ▸ hc
      · simp at h
  · by_cases hdd : comp = ['.', '.']
    · rw [if_pos hdd] at hx
      by_cases htop : top = ['.', '.']
      · simp only [if_pos htop] at hx
        rcases List.mem_cons.mp hx with h | h
        · exact h ▸ hc
        · exact hs x h
      · simp only [if_neg htop] at hx
        exact hs x (List.mem_cons_of_mem top hx)
    · rw [if_neg hdd] at hx
      rcases List.mem_cons.mp hx with h | h
      · exact h ▸ hc
      · exact hs x h

/-- The `..`-resolution fold preserves nonempty separator-free components. -/
theorem foldl_resolveStep_good (abs : Bool) (comps : List Str) :
    ∀ stack, (∀ x ∈ stack, x ≠ [] ∧ sep ∉ x) → (∀ x ∈ comps, x ≠ [] ∧ sep ∉ x) →
      ∀ x ∈ comps.foldl (resolveStep abs) stack, x ≠ [] ∧ sep ∉ x := by
  induction comps with
  | nil =>
    intro stack hs _ x hx
    exact hs x hx
  | cons c rest ih =>
    intro stack hs hc x hx
    exact ih (resolveStep abs stack c)
      (resolveStep_good abs stack c hs (hc c (List.mem_cons_self c rest)))
      (fun y hy => hc y (List.mem_cons_of_mem c hy)) x hx

/-- Resolved components are nonempty and separator-free. -/
theorem resolveComps_good (abs : Bool) (comps : List Str)
    (h : ∀ x ∈ comps, x ≠ [] ∧ sep ∉ x) :
    ∀ x ∈ resolveComps abs comps, x ≠ [] ∧ sep ∉ x := by
  intro x hx
  unfold resolveComps at hx
  rw [List.mem_reverse] at hx
  exact foldl_resolveStep_good abs comps [] (by simp) h x hx

/-- Joining nonempty separator-free components never produces a trailing
separator, and produces a nonempty string when there are components. -/
theorem joinComps_good (comps : List Str) (h : ∀ x ∈ comps, x ≠ [] ∧ sep ∉ x) :
    (comps ≠ [] → joinComps comps ≠ []) ∧ (joinComps comps).getLast? ≠ some sep := by
  induction comps with
  | nil =>
    exact ⟨fun hx => absurd rfl hx, by simp [joinComps]⟩
  | cons c rest ih =>
    rcases rest with _ | ⟨c2, rest2⟩
    · have hc := h c (List.mem_cons_self c [])
      refine ⟨fun _ => by simpa [joinComps] using hc.1, ?_⟩
      intro hlast
      simp only [joinComps] at hlast
      exact hc.2 (List.mem_of_mem_getLast? hlast)
    · have ihr := ih (fun y hy => h y (List.mem_cons_of_mem c hy))
      have hJne : joinComps (c2 :: rest2) ≠ [] := ihr.1 (by simp)
      constructor
      · intro _
        simp [joinComps]
      · have hstep : (joinComps (c :: c2 :: rest2)).getLast? =
            (joinComps (c2 :: rest2)).getLast? := by
          show (c ++ sep :: joinComps (c2 :: rest2)).getLast? = _
          rw [List.getLast?_append_of_ne_nil c (by simp),
            show sep :: joinComps (c2 :: rest2) = [sep] ++ joinComps (c2 :: rest2) from rfl,
            List.getLast?_append_of_ne_nil [sep] hJne]
        rw [hstep]
        exact ihr.2

/-- A cleaned path either is the root `/` or has no trailing separator. -/
theorem clean_getLast (s : Str) : clean s = [sep] ∨ (clean s).getLast? ≠ some sep := by
  by_cases hs : s = []
  · right
    simp [clean, hs, sep]
  · unfold clean
    rw [if_neg hs]
    by_cases habs : s.head? = some sep
    · rw [if_pos habs]
      by_cases hcc : resolveComps true (filterComps s) = []
      · left
        rw [if_pos hcc]
      · right
        rw [if_neg hcc]
        have hj := joinComps_good (resolveComps true (filterComps s))
          (resolveComps_good true (filterComps s) (filterComps_good s))
        rw [show sep :: joinComps (resolveComps true (filterComps s)) =
            [sep] ++ joinComps (resolveComps true (filterComps s)) from rfl,
          List.getLast?_append_of_ne_nil [sep] (hj.1 hcc)]
        exact hj.2
    · rw [if_neg habs]
      by_cases hcc : resolveComps false (filterComps s) = []
      · right
        rw [if_pos hcc]
        simp [sep]
      · right
        rw [if_neg hcc]
        exact (joinComps_good (resolveComps false (filterComps s))
          (resolveComps_good false (filterComps s) (filterComps_good s))).2

/-- Two nonempty paths with the same leading character and the same kept
components clean to the same path. -/
theorem clean_congr (a b : Str) (ha : a ≠ []) (hb : b ≠ []) (hh : a.head? = b.head?)
    (hc : filterComps a = filterComps b) : clean a = clean b := by
  unfold clean
  rw [if_neg ha, if_neg hb, hh, hc]

/-- A joined path either is the root `/` or has no trailing separator. -/
theorem joinPath_getLast (a b : Str) :
    joinPath a b = [sep] ∨ (joinPath a b).getLast? ≠ some sep := by
  unfold joinPath
  by_cases ha : a = []
  · rw [if_pos ha]
    by_cases hb : b = []
    · rw [if_pos hb]
      right
      simp
    · rw [if_neg hb]
      exact clean_getLast b
  · rw [if_neg ha]
    by_cases hb : b = []
    · rw [if_pos hb]
      exact clean_getLast a
    · rw [if_neg hb]
      exact clean_getLast (a ++ sep :: b)

/-- The head of what `dropWhile` leaves does not satisfy the predicate. -/
theorem head?_dropWhile_not {α : Type} (p : α → Bool) (l : List α) (a : α)
    (h : (l.dropWhile p).head? = some a) : p a = false := by
  induction l with
  | nil => simp [List.dropWhile] at h
  | cons c t ih =>
    rw [List.dropWhile_cons] at h
    by_cases hpc : p c = true
    · rw [if_pos hpc] at h
      exact ih h
    · rw [if_neg hpc] at h
      simp only [List.head?_cons, Option.some.injEq] at h
      subst h
      simpa using hpc

/-- Trimming trailing separators leaves no trailing separator. -/
theorem trimRightSep_getLast (s : Str) : (trimRightSep s).getLast? ≠ some sep := by
  intro h
  rw [List.getLast?_eq_head?_reverse] at h
  have h2 : (trimRightSep s).reverse = s.reverse.dropWhile (fun c => c == sep) := by
    simp [trimRightSep]
  rw [h2] at h
  have h3 := head?_dropWhile_not _ _ _ h
  simp at h3

/-- Trimming trailing separators does nothing to a path without one. -/
theorem trimRightSep_eq_self (s : Str) (h : s.getLast? ≠ some sep) : trimRightSep s = s := by
  have h2 : s.reverse.head? ≠ some sep := by
    rwa [List.getLast?_eq_head?_reverse] at h
  have h3 : s.reverse.dropWhile (fun c => c == sep) = s.reverse := by
    rcases hr : s.reverse with _ | ⟨c, t⟩
    · simp
    · rw [hr] at h2
      have hc : (c == sep) = false := by
        simp only [List.head?_cons] at h2
        simpa using fun hx => h2 (by rw [hx])
      rw [List.dropWhile_cons, hc]
      simp
  unfold trimRightSep
  rw [h3, List.reverse_reverse]

/-- Dropping a `/`-terminated component string from a clean equation:
joining `x` and `.` `/` `x` onto a nonempty base gives the same clean
path. -/
theorem clean_append_sep_congr (c x y : Str) (hc : c ≠ [])
    (h : filterComps x = filterComps y) :
    clean (c ++ sep :: x) = clean (c ++ sep :: y) := by
  apply clean_congr _ _ (by simp) (by simp)
  · rw [List.head?_append_of_ne_nil c hc, List.head?_append_of_ne_nil c hc]
  · rw [filterComps_append, filterComps_append, h]

/-- Cleaning ignores a single trailing separator. -/
theorem clean_append_sep_nil (c : Str) (hc : c ≠ []) : clean (c ++ [sep]) = clean c := by
  apply clean_congr _ _ (by simp) hc
  · exact List.head?_append_of_ne_nil c hc
  · rw [show c ++ [sep] = c ++ sep :: ([] : Str) from rfl, filterComps_append]
    simp [filterComps, splitSep]

/-- Trimming the `./` from the model-supplied path before joining it onto a
nonempty base changes nothing (`filepath.Join` discards `.` components). -/
theorem joinPath_dotslash (c w : Str) (hc : c ≠ []) (hw : dotSlash.isPrefixOf w = true) :
    joinPath c (trimPre w dotSlash) = joinPath c w := by
  obtain ⟨x, hx⟩ := List.isPrefixOf_iff_prefix.mp hw
  subst hx
  have htrim : trimPre (dotSlash ++ x) dotSlash = x := by
    unfold trimPre
    rw [if_pos hw]
    exact List.drop_left dotSlash x
  rw [htrim]
  rcases x with _ | ⟨y, ys⟩
  · rw [List.append_nil]
    show joinPath c [] = joinPath c ('.' :: sep :: [])
    unfold joinPath
    rw [if_neg hc, if_pos rfl, if_neg hc, if_neg (by simp : ¬('.' :: sep :: [] = ([] : Str))),
      clean_append_sep_congr c ('.' :: sep :: []) [] hc (filterComps_dot_sep_cons []),
      show c ++ sep :: ([] : Str) = c ++ [sep] from rfl, clean_append_sep_nil c hc]
  · show joinPath c (y :: ys) = joinPath c ('.' :: sep :: y :: ys)
    unfold joinPath
    rw [if_neg hc, if_neg (by simp : ¬(y :: ys = ([] : Str))), if_neg hc,
      if_neg (by simp : ¬('.' :: sep :: y :: ys = ([] : Str)))]
    exact (clean_append_sep_congr c (y :: ys) ('.' :: sep :: y :: ys) hc
      (filterComps_dot_sep_cons (y :: ys)).symm)

/-- Joining the suffix of a path under the current directory back onto the
`/`-terminated current directory is just cleaning the full path. -/
theorem joinPath_under_cwd (c w : Str) (hc : c ≠ [])
    (hp : (c ++ [sep]).isPrefixOf w = true) :
    trimRightSep (joinPath (c ++ [sep]) (trimPre w (c ++ [sep]))) =
      trimRightSep (clean w) := by
  obtain ⟨x, hx⟩ := List.isPrefixOf_iff_prefix.mp hp
  subst hx
  have htrim : trimPre ((c ++ [sep]) ++ x) (c ++ [sep]) = x := by
    unfold trimPre
    rw [if_pos hp]
    exact List.drop_left _ _
  rw [htrim]
  rcases x with _ | ⟨y, ys⟩
  · simp only [List.append_nil]
    unfold joinPath
    rw [if_neg (by simp : ¬(c ++ [sep] = ([] : Str))), if_pos rfl]
  · congr 1
    unfold joinPath
    rw [if_neg (by simp : ¬(c ++ [sep] = ([] : Str))),
      if_neg (by simp : ¬(y :: ys = ([] : Str)))]
    have e1 : (c ++ [sep]) ++ sep :: y :: ys = c ++ sep :: (sep :: y :: ys) := by simp
    have e2 : (c ++ [sep]) ++ y :: ys = c ++ sep :: (y :: ys) := by simp
    rw [e1, e2]
    exact clean_append_sep_congr c (sep :: y :: ys) (y :: ys) hc
      (filterComps_sep_cons (y :: ys))

/-- Whether one `CombinedOutput` error is present exactly when the spawn
outcome is a failure. -/
theorem procErr_isSome_iff (res : ProcOutcome) :
    (procErr res).isSome = true ↔ procBad res = true := by
  rcases res with ⟨c, out⟩ | out | _
  · cases c <;> simp [procErr, procBad]
  · simp [procErr, procBad]
  · simp [procErr, procBad]

/-- Inserting a key makes lookup at that key return the new value. -/
theorem mapLookup_insert_same {α : Type} (m : List (Str × α)) (k : Str) (v : α) :
    mapLookup (mapInsert m k v) k = some v := by
  induction m with
  | nil =>
    unfold mapInsert mapLookup
    rw [List.find?_cons_of_pos _ (by simp)]
    rfl
  | cons p rest ih =>
    unfold mapInsert
    by_cases hp : p.1 = k
    · rw [if_pos hp]
      unfold mapLookup
      rw [List.find?_cons_of_pos _ (by simp)]
      rfl
    · rw [if_neg hp]
      unfold mapLookup
      rw [List.find?_cons_of_neg _ (by simp [hp])]
      exact ih

/-- Inserting one key leaves lookups at other keys unchanged. -/
theorem mapLookup_insert_ne {α : Type} (m : List (Str × α)) (k k2 : Str) (v : α)
    (h : k2 ≠ k) : mapLookup (mapInsert m k2 v) k = mapLookup m k := by
  induction m with
  | nil =>
    unfold mapInsert mapLookup
    rw [List.find?_cons_of_neg _ (by simp [h])]
  | cons p rest ih =>
    unfold mapInsert
    by_cases hp : p.1 = k2
    · have hpk : ¬(p.1 = k) := fun hx => h (hp ▸ hx)
      rw [if_pos hp]
      unfold mapLookup
      rw [List.find?_cons_of_neg _ (by simp [h]), List.find?_cons_of_neg _ (by simp [hpk])]
    · rw [if_neg hp]
      by_cases hpk : p.1 = k
      · unfold mapLookup
        rw [List.find?_cons_of_pos _ (by simp [hpk]), List.find?_cons_of_pos _ (by simp [hpk])]
      · unfold mapLookup
        rw [List.find?_cons_of_neg _ (by simp [hpk]), List.find?_cons_of_neg _ (by simp [hpk])]
        exact ih

/-- One entry-loop iteration keeps every bound key bound. -/
theorem mapLookup_loadStep_isSome (path : List Str) (m : List (Str × RegTool))
    (e : DirEntry) (k : Str) (h : (mapLookup m k).isSome = true) :
    (mapLookup (loadStep path m e) k).isSome = true := by
  unfold loadStep
  by_cases hd : e.isDir
  · simpa [hd] using h
  · rcases hlt : loadTool path (trimExt e.name) e with _ | t
    · simpa [hd, hlt] using h
    · by_cases hk : trimExt e.name = k
      · subst hk
        simp [hd, hlt, mapLookup_insert_same]
      · simpa [hd, hlt, mapLookup_insert_ne _ _ _ _ hk] using h

/-- The entry loop keeps every bound key bound. -/
theorem mapLookup_foldl_isSome (path : List Str) (entries : List DirEntry) (k : Str) :
    ∀ m, (mapLookup m k).isSome = true →
      (mapLookup (entries.foldl (loadStep path) m) k).isSome = true := by
  induction entries with
  | nil => intro m h; exact h
  | cons e rest ih =>
    intro m h
    exact ih _ (mapLookup_loadStep_isSome path m e k h)

/-- When an iteration cannot rebind the reserved exec name, the exec binding
survives it untouched. -/
theorem loadStep_preserves_exec (path : List Str) (m : List (Str × RegTool)) (e : DirEntry)
    (h : e.isDir = false → trimExt e.name = execToolName →
      loadTool path (trimExt e.name) e = none) :
    mapLookup (loadStep path m e) execToolName = mapLookup m execToolName := by
  unfold loadStep
  by_cases hd : e.isDir
  · simp [hd]
  · have hd2 : e.isDir = false := by simpa using hd
    by_cases hk : trimExt e.name = execToolName
    · simp [hd, h hd2 hk]
    · rcases hlt : loadTool path (trimExt e.name) e with _ | t
      · simp [hd, hlt]
      · simp [hd, hlt, mapLookup_insert_ne _ _ _ _ hk]

/-- The whole entry loop preserves the exec binding when no entry can rebind
the reserved name. -/
theorem foldl_preserves_exec (path : List Str) (entries : List DirEntry)
    (h : ∀ e ∈ entries, e.isDir = false → trimExt e.name = execToolName →
      loadTool path (trimExt e.name) e = none) :
    ∀ m, mapLookup (entries.foldl (loadStep path) m) execToolName =
      mapLookup m execToolName := by
  induction entries with
  | nil => intro m; rfl
  | cons e rest ih =>
    intro m
    have he := h e (List.mem_cons_self e rest)
    have hrest : ∀ e2 ∈ rest, e2.isDir = false → trimExt e2.name = execToolName →
        loadTool path (trimExt e2.name) e2 = none :=
      fun e2 he2 => h e2 (List.mem_cons_of_mem e he2)
    calc mapLookup ((e :: rest).foldl (loadStep path) m) execToolName
        = mapLookup (rest.foldl (loadStep path) (loadStep path m e)) execToolName := rfl
      _ = mapLookup (loadStep path m e) execToolName := ih hrest _
      _ = mapLookup m execToolName := loadStep_preserves_exec path m e he

/-- C5 counterexample: a valid declarative definition in a file named
`exec.yaml` overwrites the statically inserted exec tool, contradicting the
claimed precedence of the static exec tool. -/
theorem exec_tool_shadowed_counterexample :
    mapLookup (loadTools []
      [{ name := execYamlName, isDir := false, contents := FileContents.yamlDef shadowDef }])
      execToolName = some (RegTool.decl execToolName shadowDef) ∧
    RegTool.decl execToolName shadowDef ≠ RegTool.exec := by
  decide

/-- C5 (amended): every completed `LoadTools` run binds the reserved name
`exec` — to the statically constructed exec tool whenever no valid
declarative definition with base name `exec` is loaded afterwards; such a
definition, when present, overwrites the static exec tool. -/
theorem exec_tool_static_insertion (path : List Str) (entries : List DirEntry)
    (h : ∀ e ∈ entries, e.isDir = false → trimExt e.name = execToolName →
      loadTool path (trimExt e.name) e = none) :
    mapLookup (loadTools path entries) execToolName = some RegTool.exec ∧
    (∀ entries2, (mapLookup (loadTools path entries2) execToolName).isSome = true) := by
  have base : mapLookup (mapInsert ([] : List (Str × RegTool)) execToolName RegTool.exec)
      execToolName = some RegTool.exec := by
    simp [mapInsert, mapLookup, List.find?]
  constructor
  · unfold loadTools
    rw [foldl_preserves_exec path entries h]
    exact base
  · intro entries2
    unfold loadTools
    exact mapLookup_foldl_isSome path entries2 execToolName _ (by simp [base])

/-- Witness for the amended C5 at a directory holding one ordinary
definition, and at an empty directory. -/
theorem exec_tool_static_insertion_witness :
    mapLookup (loadTools []
      [{ name := ['g', 'i', 't', '.', 'y', 'a', 'm', 'l'], isDir := false,
         contents := FileContents.yamlDef shadowDef }]) execToolName = some RegTool.exec ∧
    (mapLookup (loadTools [] []) execToolName).isSome = true :=
  ⟨(exec_tool_static_insertion []
      [{ name := ['g', 'i', 't', '.', 'y', 'a', 'm', 'l'], isDir := false,
         contents := FileContents.yamlDef shadowDef }] (by decide)).1,
   (exec_tool_static_insertion [] [] (by decide)).2 []⟩

/-- C8 counterexample: with one malformed definition and one well-formed
definition in a file named `exec.yaml`, the resulting tool set has a single
entry and the statically constructed exec tool is not in it, contradicting
the claimed "well-formed tool plus the exec tool". -/
theorem registry_resilience_counterexample :
    (loadTools []
      [{ name := ['b', 'a', 'd', '.', 'y', 'a', 'm', 'l'], isDir := false,
         contents := FileContents.yamlDef invalidDef },
       { name := execYamlName, isDir := false,
         contents := FileContents.yamlDef shadowDef }]).length = 1 ∧
    mapLookup (loadTools []
      [{ name := ['b', 'a', 'd', '.', 'y', 'a', 'm', 'l'], isDir := false,
         contents := FileContents.yamlDef invalidDef },
       { name := execYamlName, isDir := false,
         contents := FileContents.yamlDef shadowDef }]) execToolName ≠
      some RegTool.exec := by
  decide

/-- C8 (amended): a completed directory read never fails because of an
invalid definition; an empty directory yields exactly the exec tool; and a
directory with one malformed and one well-formed definition yields exactly
the exec tool plus the well-formed tool, provided the well-formed file's
base name is not the reserved exec name. -/
theorem registry_resilience (path : List Str) :
    (∀ entries, loadToolsE path (some entries) = some (loadTools path entries)) ∧
    loadTools path [] = [(execToolName, RegTool.exec)] ∧
    (∀ (nb ng : Str) (db dg : Definition),
      validateDefinition path db ≠ none → validateDefinition path dg = none →
      trimExt ng ≠ execToolName →
      loadTools path
        [{ name := nb, isDir := false, contents := FileContents.yamlDef db },
         { name := ng, isDir := false, contents := FileContents.yamlDef dg }] =
        [(execToolName, RegTool.exec), (trimExt ng, RegTool.decl (trimExt ng) dg)]) := by
  refine ⟨fun _ => rfl, rfl, ?_⟩
  intro nb ng db dg hb hg hne
  have hbs : (validateDefinition path db).isSome = true := by
    rcases hx : validateDefinition path db with _ | v
    · exact absurd hx hb
    · rfl
  have hne2 : ¬(execToolName = trimExt ng) := fun hx => hne hx.symm
  simp [loadTools, loadStep, loadTool, hbs, hg, mapInsert, hne2]

/-- Witness for the amended C8 at concrete definition files. -/
theorem registry_resilience_witness :
    loadToolsE [] (some []) = some (loadTools [] []) ∧
    loadTools [] [] = [(execToolName, RegTool.exec)] ∧
    loadTools []
      [{ name := ['b', 'a', 'd', '.', 'y', 'a', 'm', 'l'], isDir := false,
         contents := FileContents.yamlDef invalidDef },
       { name := ['g', 'i', 't', '.', 'y', 'a', 'm', 'l'], isDir := false,
         contents := FileContents.yamlDef shadowDef }] =
      [(execToolName, RegTool.exec),
       (trimExt ['g', 'i', 't', '.', 'y', 'a', 'm', 'l'],
        RegTool.decl (trimExt ['g', 'i', 't', '.', 'y', 'a', 'm', 'l']) shadowDef)] :=
  ⟨(registry_resilience []).1 [],
   (registry_resilience []).2.1,
   (registry_resilience []).2.2 ['b', 'a', 'd', '.', 'y', 'a', 'm', 'l']
     ['g', 'i', 't', '.', 'y', 'a', 'm', 'l'] invalidDef shadowDef
     (by decide) (by decide) (by decide)⟩

/-- C7 counterexample: with the process in `/root` and the model passing
`working_directory = ".."`, the resolved working directory is `/`, which
ends with the path separator; and with the process at the root directory
and no `working_directory` input, the result is the empty string, not the
process's current directory `/`. -/
theorem working_directory_counterexample :
    getWorkingDirectory ['/', 'r', 'o', 'o', 't']
      [(inputWorkingDirectory, Value.str ['.', '.'])] = [sep] ∧
    ([sep] : Str).getLast? = some sep ∧
    getWorkingDirectory [sep] [] = [] ∧ (([] : Str) = [sep] → False) := by
  refine ⟨by decide, by decide, by decide, by decide⟩

/-- C7 (amended): when the process's current directory is a cleaned
absolute path other than the root, the exec tool resolves the working
directory as the claim describes — absent or `.` yields the current
directory, a `./`-prefixed or separator-free value is joined to it, an
absolute value under the current directory is normalized (cleaned), any
other absolute value is used as-is with trailing separators stripped — and
the result never ends with a trailing separator unless it is exactly the
root `/`. -/
theorem working_directory_resolution (cwd : Str) (inputs : Inputs)
    (habs : cwd.head? = some sep) (hnt : cwd.getLast? ≠ some sep) :
    (lookupStr inputs inputWorkingDirectory = none →
      getWorkingDirectory cwd inputs = cwd) ∧
    (lookupStr inputs inputWorkingDirectory = some ['.'] →
      getWorkingDirectory cwd inputs = cwd) ∧
    (∀ w, lookupStr inputs inputWorkingDirectory = some w → w ≠ ['.'] →
      (dotSlash.isPrefixOf w = true ∨ w.contains sep = false) →
      getWorkingDirectory cwd inputs = joinPath cwd w) ∧
    (∀ w, lookupStr inputs inputWorkingDirectory = some w → w ≠ ['.'] →
      dotSlash.isPrefixOf w = false → w.contains sep = true →
      (cwd ++ [sep]).isPrefixOf w = true →
      getWorkingDirectory cwd inputs = trimRightSep (clean w)) ∧
    (∀ w, lookupStr inputs inputWorkingDirectory = some w → w ≠ ['.'] →
      dotSlash.isPrefixOf w = false → w.contains sep = true →
      w.head? = some sep → (cwd ++ [sep]).isPrefixOf w = false →
      getWorkingDirectory cwd inputs = trimRightSep w) ∧
    (getWorkingDirectory cwd inputs = [sep] ∨
      (getWorkingDirectory cwd inputs).getLast? ≠ some sep) := by
  have hcne : cwd ≠ [] := by
    intro hx
    rw [hx] at habs
    simp at habs
  have hcwd : trimRightSep cwd = cwd := trimRightSep_eq_self cwd hnt
  refine ⟨?_, ?_, ?_, ?_, ?_, ?_⟩
  · intro hlk
    simp only [getWorkingDirectory, hlk]
    exact hcwd
  · intro hlk
    simp only [getWorkingDirectory, hlk]
    simpa using hcwd
  · intro w hlk hdot hguard
    have hg : (dotSlash.isPrefixOf w || !(w.contains sep)) = true := by
      rcases hguard with h | h
      · rw [h]
        simp
      · rw [h]
        simp
    simp only [getWorkingDirectory, hlk]
    rw [if_neg hdot, if_pos hg, hcwd]
    by_cases hpre : dotSlash.isPrefixOf w = true
    · exact joinPath_dotslash cwd w hcne hpre
    · have htp : trimPre w dotSlash = w := by
        unfold trimPre
        rw [if_neg (by simpa using hpre)]
      rw [htp]
  · intro w hlk hdot hpre hcont hp
    have hg : ¬((dotSlash.isPrefixOf w || !(w.contains sep)) = true) := by
      rw [hpre, hcont]
      simp
    simp only [getWorkingDirectory, hlk]
    rw [if_neg hdot, if_neg hg, hcwd, if_pos hp]
    exact joinPath_under_cwd cwd w hcne hp
  · intro w hlk hdot hpre hcont _ hp
    have hg : ¬((dotSlash.isPrefixOf w || !(w.contains sep)) = true) := by
      rw [hpre, hcont]
      simp
    have hp2 : ¬(((cwd ++ [sep]).isPrefixOf w) = true) := by
      rw [hp]
      simp
    simp only [getWorkingDirectory, hlk]
    rw [if_neg hdot, if_neg hg, hcwd, if_neg hp2]
  · rcases hlk : lookupStr inputs inputWorkingDirectory with _ | w
    · right
      simp only [getWorkingDirectory, hlk]
      exact trimRightSep_getLast cwd
    · by_cases hdot : w = ['.']
      · right
        simp only [getWorkingDirectory, hlk]
        rw [if_pos hdot]
        exact trimRightSep_getLast cwd
      · by_cases hg : (dotSlash.isPrefixOf w || !(w.contains sep)) = true
        · simp only [getWorkingDirectory, hlk]
          rw [if_neg hdot, if_pos hg]
          exact joinPath_getLast (trimRightSep cwd) (trimPre w dotSlash)
        · right
          simp only [getWorkingDirectory, hlk]
          rw [if_neg hdot, if_neg hg]
          exact trimRightSep_getLast _

/-- Witness for the amended C7 at the current directory `/a`. -/
theorem working_directory_resolution_witness :
    getWorkingDirectory [sep, 'a'] [] = [sep, 'a'] ∧
    (getWorkingDirectory [sep, 'a'] [] = [sep] ∨
      (getWorkingDirectory [sep, 'a'] []).getLast? ≠ some sep) :=
  ⟨(working_directory_resolution [sep, 'a'] [] (by decide) (by decide)).1 rfl,
   (working_directory_resolution [sep, 'a'] [] (by decide) (by decide)).2.2.2.2.2⟩

/-- C2: a transport error from the model API terminates the turn loop at
once — the error is returned as-is, exactly one API call was made for it,
and the remainder of the script is never consumed (no retry, no further
turns); at the top level `Run` propagates exactly that error to the
caller. -/
theorem transport_error_fatal_no_retry :
    (∀ (tools : List (Str × ATool)) (e : Nat) (rest : List ApiResult) (conv : List Turn)
      (outputs : List Output),
      runLoop tools (ApiResult.fail e :: rest) conv outputs =
        { result := none, error := some (Err.api e), conversation := conv, apiCalls := 1,
          ranOut := false }) ∧
    (∀ (o : RunOptions) (e : Nat) (rest : List ApiResult), o.task ≠ [] →
      agentRun (some o) (ApiResult.fail e :: rest) =
        ({ result := none, error := some (Err.api e),
           conversation := [Turn.user (UserContent.text o.task)], apiCalls := 1,
           ranOut := false }, [StatusV.running])) := by
  refine ⟨fun _ _ _ _ _ => rfl, ?_⟩
  intro o e rest h
  simp only [agentRun]
  rw [if_neg h]
  rfl

/-- Witness for C2 at a one-turn failing script. -/
theorem transport_error_fatal_no_retry_witness :
    runLoop [] [ApiResult.fail 7] [] [] =
      { result := none, error := some (Err.api 7), conversation := [], apiCalls := 1,
        ranOut := false } ∧
    agentRun (some { task := ['x'], prompt := [], caller := [], tools := [] })
      [ApiResult.fail 7] =
      ({ result := none, error := some (Err.api 7),
         conversation := [Turn.user (UserContent.text ['x'])], apiCalls := 1,
         ranOut := false }, [StatusV.running]) :=
  ⟨transport_error_fatal_no_retry.1 [] 7 [] [] [],
   transport_error_fatal_no_retry.2 { task := ['x'], prompt := [], caller := [], tools := [] }
     7 [] (by decide)⟩

/-- C1: when a turn's model response yields zero serviced tool-use blocks
(no tool-result block was built), the loop terminates at that turn,
returning the outputs accumulated over the prior turns with a nil error;
the rest of the script is untouched. -/
theorem run_returns_on_no_tool_results (tools : List (Str × ATool)) (r : ModelResponse)
    (rest : List ApiResult) (conv : List Turn) (outputs : List Output)
    (h : (r.content.filterMap (serviceBlock tools)).map (fun p => p.1) = ([] : List ResultBlock)) :
    runLoop tools (ApiResult.ok r :: rest) conv outputs =
      { result := some outputs, error := none, conversation := conv ++ [Turn.model r],
        apiCalls := 1, ranOut := false } := by
  have h0 : r.content.filterMap (serviceBlock tools) = [] := by
    rcases hfm : r.content.filterMap (serviceBlock tools) with _ | ⟨a, l⟩
    · rfl
    · rw [hfm] at h
      simp at h
  simp [runLoop, h0]

/-- Witness for C1 at a response holding a single text block. -/
theorem run_returns_on_no_tool_results_witness :
    runLoop [] [ApiResult.ok { content := [ContentBlock.text []] }] [] [] =
      { result := some [], error := none,
        conversation := [Turn.model { content := [ContentBlock.text []] }],
        apiCalls := 1, ranOut := false } :=
  run_returns_on_no_tool_results [] { content := [ContentBlock.text []] } [] [] [] (by decide)

/-- C10: when every tool-use block of a turn yields a nil tool output (with
or without an error), no output is appended and no tool-result block is
built, so the run terminates at that turn with a nil error — the tool's
error is neither fed back to the model nor surfaced to the caller. -/
theorem nil_output_skipped_and_run_succeeds (tools : List (Str × ATool)) (r : ModelResponse)
    (rest : List ApiResult) (conv : List Turn) (outputs : List Output)
    (h : ∀ b ∈ r.content, ∀ id name inputs t, b = ContentBlock.toolUse id name (some inputs) →
      lookupTool tools name = some t → (t.execute inputs).1 = none) :
    runLoop tools (ApiResult.ok r :: rest) conv outputs =
      { result := some outputs, error := none, conversation := conv ++ [Turn.model r],
        apiCalls := 1, ranOut := false } := by
  have h0 : r.content.filterMap (serviceBlock tools) = [] := by
    apply List.filterMap_eq_nil_iff.mpr
    intro b hb
    cases b with
    | text s => rfl
    | toolUse id name input? =>
      cases input? with
      | none => rfl
      | some inputs =>
        simp only [serviceBlock]
        cases hlk : lookupTool tools name with
        | none => rfl
        | some t =>
          have hx := h _ hb id name inputs t rfl hlk
          rcases hex : t.execute inputs with ⟨o, e⟩
          rw [hex] at hx
          simp only at hx
          subst hx
          simp [hex]
  simp [runLoop, h0]

/-- Witness for C10 at a tool that returns a nil output with an error. -/
theorem nil_output_skipped_and_run_succeeds_witness :
    runLoop [(['t'], nilOutputTool)]
      [ApiResult.ok { content := [ContentBlock.toolUse ['1'] ['t'] (some [])] }] [] [] =
      { result := some [], error := none,
        conversation := [Turn.model { content := [ContentBlock.toolUse ['1'] ['t'] (some [])] }],
        apiCalls := 1, ranOut := false } :=
  nil_output_skipped_and_run_succeeds _ _ _ _ _ (by
    intro b hb id name inputs t hbeq hlk
    simp at hb
    subst hb
    cases hbeq
    simp [lookupTool, List.find?] at hlk
    subst hlk
    rfl)

/-- The turn loop only ever appends to the conversation it was given a
model turn and then a tool-results user turn per iteration, so a
conversation whose tail consists of completed iterations keeps that shape,
possibly closed by the final model turn. -/
theorem runLoop_conversation_shape (tools : List (Str × ATool)) (script : List ApiResult) :
    ∀ (h0 : Turn) (t : List Turn) (outputs : List Output), PairedTurns t →
      ∃ t2, (runLoop tools script (h0 :: t) outputs).conversation = h0 :: t2 ∧ AltTail t2 := by
  induction script with
  | nil =>
    intro h0 t outputs ht
    exact ⟨t, rfl, AltTail.paired t ht⟩
  | cons a rest ih =>
    intro h0 t outputs ht
    cases a with
    | fail e => exact ⟨t, rfl, AltTail.paired t ht⟩
    | ok r =>
      by_cases hres : (r.content.filterMap (serviceBlock tools)).map (fun p => p.1) = []
      · refine ⟨t ++ [Turn.model r], ?_, AltTail.modelEnd t r ht⟩
        simp [runLoop, hres]
      · obtain ⟨t2, hconv, halt⟩ := ih h0
          (t ++ [Turn.model r, Turn.user (UserContent.toolResults
            ((r.content.filterMap (serviceBlock tools)).map (fun p => p.1)))])
          (outputs ++ (r.content.filterMap (serviceBlock tools)).map (fun p => p.2))
          (PairedTurns.snoc t r _ ht)
        refine ⟨t2, ?_, halt⟩
        simp only [runLoop, if_neg hres]
        simpa using hconv

/-- C9: throughout a `Run` the conversation starts with exactly one user
turn holding the task text and then strictly alternates model-response
turns and tool-result user turns: each iteration appends one model turn
and, unless the loop terminates, one user turn of tool results. -/
theorem conversation_alternation (o : RunOptions) (script : List ApiResult)
    (h : o.task ≠ []) :
    ∃ t, (agentRun (some o) script).1.conversation =
      Turn.user (UserContent.text o.task) :: t ∧ AltTail t := by
  simp only [agentRun]
  rw [if_neg h]
  exact runLoop_conversation_shape o.tools script _ [] [] PairedTurns.nil

/-- Witness for C9 at a one-turn run. -/
theorem conversation_alternation_witness :
    ∃ t, (agentRun (some { task := ['x'], prompt := [], caller := [], tools := [] }) []).1.conversation =
      Turn.user (UserContent.text ['x']) :: t ∧ AltTail t :=
  conversation_alternation { task := ['x'], prompt := [], caller := [], tools := [] } []
    (by decide)

/-- C3: precondition errors are detected synchronously and are fatal to the
call that raised them: a nil options struct fails with `NoRunOptions`, an
empty task fails with `NoTaskProvided` (in both cases no `Running` status
is emitted and zero API calls are made), a declarative tool's `Execute`
fails with `InvalidInputType` on a missing or non-string `task` for every
possible runner (so no nested run is attempted), and the exec tool's
`Execute` fails with `InvalidInputType` on a missing or non-string
`command` for every possible spawner (so no process is spawned). -/
theorem precondition_errors_fail_fast :
    (∀ script, agentRun none script =
      ({ result := none, error := some Err.noRunOptions, conversation := [], apiCalls := 0,
         ranOut := false }, [])) ∧
    (∀ script (o : RunOptions), o.task = [] → agentRun (some o) script =
      ({ result := none, error := some Err.noTaskProvided, conversation := [], apiCalls := 0,
         ranOut := false }, [])) ∧
    (∀ (runner : Runner) (env : OsEnv) (t : DeclTool) (inputs : Inputs),
      lookupStr inputs inputTask = none →
      declExecute runner env t inputs = (none, some (Err.invalidInputType inputTask))) ∧
    (∀ (env : OsEnv) (inputs : Inputs), lookupStr inputs inputCommand = none →
      execExecute env inputs = (none, some (Err.invalidInputType inputCommand))) := by
  refine ⟨fun _ => rfl, ?_, ?_, ?_⟩
  · intro script o h
    simp [agentRun, h]
  · intro runner env t inputs h
    simp [declExecute, h]
  · intro env inputs h
    simp [execExecute, h]

/-- Witness for C3 at concrete empty inputs. -/
theorem precondition_errors_fail_fast_witness :
    agentRun none [] =
      ({ result := none, error := some Err.noRunOptions, conversation := [], apiCalls := 0,
         ranOut := false }, []) ∧
    agentRun (some { task := [], prompt := [], caller := [], tools := [] }) [] =
      ({ result := none, error := some Err.noTaskProvided, conversation := [], apiCalls := 0,
         ranOut := false }, []) ∧
    declExecute (fun _ => ([], none)) idleOsEnv gitDecl [] =
      (none, some (Err.invalidInputType inputTask)) ∧
    execExecute idleOsEnv [] = (none, some (Err.invalidInputType inputCommand)) :=
  ⟨precondition_errors_fail_fast.1 [],
   precondition_errors_fail_fast.2.1 [] _ rfl,
   precondition_errors_fail_fast.2.2.1 _ idleOsEnv gitDecl [] rfl,
   precondition_errors_fail_fast.2.2.2 idleOsEnv [] rfl⟩

/-- C4: the nested run options a declarative tool builds contain exactly one
tool, the exec tool under its reserved name, so a nested declarative-tool
run can only shell out. -/
theorem nested_run_tools_only_exec (env : OsEnv) (t : DeclTool) (task : Str)
    (inputs : Inputs) :
    (nestedRunOptions env t task inputs).tools.length = 1 ∧
    mapLookup (nestedRunOptions env t task inputs).tools execToolName = some (execATool env) ∧
    (∀ n, n ≠ execToolName → mapLookup (nestedRunOptions env t task inputs).tools n = none) := by
  refine ⟨rfl, rfl, ?_⟩
  intro n hn
  have hne : execToolName ≠ n := fun hx => hn hx.symm
  simp [nestedRunOptions, mapLookup, List.find?, hne]

/-- Witness for C4 at a concrete declarative tool. -/
theorem nested_run_tools_only_exec_witness :
    (nestedRunOptions idleOsEnv gitDecl [] []).tools.length = 1 ∧
    mapLookup (nestedRunOptions idleOsEnv gitDecl [] []).tools execToolName =
      some (execATool idleOsEnv) ∧
    mapLookup (nestedRunOptions idleOsEnv gitDecl [] []).tools ['x'] = none :=
  ⟨(nested_run_tools_only_exec idleOsEnv gitDecl [] []).1,
   (nested_run_tools_only_exec idleOsEnv gitDecl [] []).2.1,
   (nested_run_tools_only_exec idleOsEnv gitDecl [] []).2.2 ['x'] (by decide)⟩

/-- C6: an exec invocation that gets past the input check always returns a
populated (non-nil) tool output whose `IsError` flag is set exactly when
the process exited non-zero, was killed, or failed to start, and in that
case the underlying execution error is returned alongside the output. -/
theorem exec_error_flag_iff (env : OsEnv) (inputs : Inputs) (command : Str)
    (h : lookupStr inputs inputCommand = some command) :
    ∃ o : Output,
      execExecute env inputs =
        (some o, procErr (env.spawn command (getWorkingDirectory env.cwd inputs))) ∧
      (o.isError = true ↔
        procBad (env.spawn command (getWorkingDirectory env.cwd inputs)) = true) ∧
      (o.isError = true →
        (procErr (env.spawn command (getWorkingDirectory env.cwd inputs))).isSome = true) := by
  have key : execExecute env inputs =
      (some
        { tool := execToolName
          result := trimSpace (procOut (env.spawn command (getWorkingDirectory env.cwd inputs)))
          isError := (procErr (env.spawn command (getWorkingDirectory env.cwd inputs))).isSome
          executedCommand := some
            { command := command
              workingDirectory := getWorkingDirectory env.cwd inputs
              exitCode := procExitCode (env.spawn command (getWorkingDirectory env.cwd inputs))
              output := trimSpace (procOut (env.spawn command (getWorkingDirectory env.cwd inputs))) } },
        procErr (env.spawn command (getWorkingDirectory env.cwd inputs))) := by
    unfold execExecute
    rw [h]
  exact ⟨_, key, procErr_isSome_iff _, fun hi => hi⟩

/-- Witness for C6 at a concrete command that exits 0. -/
theorem exec_error_flag_iff_witness :
    ∃ o : Output,
      execExecute idleOsEnv [(inputCommand, Value.str ['l', 's'])] =
        (some o, procErr (idleOsEnv.spawn ['l', 's']
          (getWorkingDirectory idleOsEnv.cwd [(inputCommand, Value.str ['l', 's'])]))) ∧
      (o.isError = true ↔
        procBad (idleOsEnv.spawn ['l', 's']
          (getWorkingDirectory idleOsEnv.cwd [(inputCommand, Value.str ['l', 's'])])) = true) ∧
      (o.isError = true →
        (procErr (idleOsEnv.spawn ['l', 's']
          (getWorkingDirectory idleOsEnv.cwd [(inputCommand, Value.str ['l', 's'])]))).isSome = true) :=
  exec_error_flag_iff idleOsEnv [(inputCommand, Value.str ['l', 's'])] ['l', 's'] (by decide)

end Opsy
